import Mathlib

/-!
# Verification of the tqdm-cpp progress-bar library

Shallow embedding of `tqdm.hpp` (class `tqdm_for_lvalues` and its helpers)
and of the legacy header variant (class `TqdmForLvalues`), together with
proofs about the progress-ticking, render-throttling, suffix, bar and
line-width behaviour.

Modelling conventions:
* C++ `double` arithmetic is embedded as exact rational arithmetic (`ℚ`);
  the literal `0.0000000000001` becomes the exact rational `1 / 10 ^ 13`.
* `std::chrono` time points are rationals; `Chronometer::peek` at an
  explicit "current time" `now` is `now - start_`.
* The side-effecting `print_progress` is modelled by emitting a
  `RenderEvent` record holding exactly the data the C++ function reads
  from the object (current `iters_done_`, `num_iters_`, the computed
  `complete` fraction and the pending suffix text).
* `index` (`std::ptrdiff_t`) is embedded as `ℤ`.
-/

namespace Tq

/-- The constant `0.0000000000001` added to the denominator in
`tqdm_for_lvalues::calc_advancement` (and in `TqdmForLvalues::print_progress`),
embedded as an exact rational. -/
def eps : ℚ := 1 / 10 ^ 13

/-- `std::round`: nearest integer, halfway cases rounded away from zero. -/
def cppRound (q : ℚ) : ℤ := if q < 0 then -⌊-q + 1 / 2⌋ else ⌊q + 1 / 2⌋

/-- `Chronometer::peek` given the current time `now`: seconds elapsed since
the stored start time. -/
def chronoPeek (start now : ℚ) : ℚ := now - start

/-- The progress-relevant state of a `tqdm_for_lvalues` object: the member
variables read and written by `begin`, `update`, `operator<<` and
`manually_set_advancement`.  (`os_`, `prefix_`, `bar_size_` and `term_cols_`
only affect the text that is printed; the printing-side computations on them
are modelled separately below by `num_filled`, `print_bar` and
`print_width`.) -/
structure St where
  num_iters : ℤ
  iters_done : ℤ
  chrono_start : ℚ
  refresh_start : ℚ
  min_time_per_update : ℚ
  suffix_ : String
deriving DecidableEq

/-- `tqdm_for_lvalues::iters_left`: `num_iters_ - iters_done_`. -/
def iters_left (s : St) : ℤ := s.num_iters - s.iters_done

/-- `tqdm_for_lvalues::calc_advancement`:
`iters_done_ / (num_iters_ + 0.0000000000001)`. -/
def calc_advancement (s : St) : ℚ := (s.iters_done : ℚ) / ((s.num_iters : ℚ) + eps)

/-- `tqdm_for_lvalues::time_since_refresh` at current time `now`:
`refresh_.peek()`. -/
def time_since_refresh (now : ℚ) (s : St) : ℚ := chronoPeek s.refresh_start now

/-- One render: the data `print_progress` reads from the object when it runs
(time of the render, `iters_done_` and `num_iters_` at that moment, the
`complete` fraction it computes, and the suffix text it prints). -/
structure RenderEvent where
  time : ℚ
  done_at : ℤ
  num : ℤ
  complete : ℚ
  suffix_out : String
deriving DecidableEq

/-- `tqdm_for_lvalues::update` at current time `now`:

```cpp
if (time_since_refresh() > min_time_per_update_ || iters_done_ == 0 ||
    iters_left() == 0)
{ reset_refresh_timer(); print_progress(); }
++iters_done_;
suffix_.str("");
```

The render condition of the `if` is `should_render`; `update` is its body.
Returns the new state together with the render event, if one was printed.
Note that `++iters_done_` and the clearing of `suffix_` happen on every
call, whether or not anything was rendered. -/
def should_render (now : ℚ) (s : St) : Prop :=
  time_since_refresh now s > s.min_time_per_update ∨ s.iters_done = 0 ∨
    iters_left s = 0

instance (now : ℚ) (s : St) : Decidable (should_render now s) := by
  unfold should_render; infer_instance

/-- The state change and render emission of `tqdm_for_lvalues::update`
(see the comment on `should_render` for the source text). -/
def update (now : ℚ) (s : St) : St × Option RenderEvent :=
  if should_render now s then
    ({ s with refresh_start := now, iters_done := s.iters_done + 1, suffix_ := "" },
     some { time := now, done_at := s.iters_done, num := s.num_iters,
            complete := calc_advancement s, suffix_out := s.suffix_ })
  else
    ({ s with iters_done := s.iters_done + 1, suffix_ := "" }, none)

/-- `tqdm_for_lvalues::begin` (the state part): resets the overall
chronometer (to the current time `t1`), resets the refresh chronometer
(to the current time `t2`), and sets `iters_done_ = 0`. -/
def tqBegin (t1 t2 : ℚ) (s : St) : St :=
  { s with chrono_start := t1, refresh_start := t2, iters_done := 0 }

/-- `tqdm_for_lvalues::operator<<`: appends (the printed form of) the
argument to the suffix stream. -/
def push_suffix (s : St) (t : String) : St := { s with suffix_ := s.suffix_ ++ t }

/-- `tqdm_for_lvalues::manually_set_advancement`:

```cpp
if (to > 1.) to = 1.;
if (to < 0.) to = 0.;
iters_done_ = std::round(to*num_iters_);
```

(the source's parameter name `to` is a reserved word in Lean, hence `tov`). -/
def manually_set_advancement (tov : ℚ) (s : St) : St :=
  let to1 : ℚ := if tov > 1 then 1 else tov
  let to2 : ℚ := if to1 < 0 then 0 else to1
  { s with iters_done := cppRound (to2 * (s.num_iters : ℚ)) }

/-- `tqdm_for_lvalues::print_bar`'s fill count:
`static_cast<index>(std::round(filled*bar_size_))`.  No clamping is
performed by the source. -/
def num_filled (filled : ℚ) (bar_size : ℤ) : ℤ := cppRound (filled * (bar_size : ℚ))

/-- `tqdm_for_lvalues::print_bar`: emits
`'[' + std::string(num_filled, '#') + std::string(bar_size_ - num_filled, ' ') + ']'`.
`std::string(n, c)` with a negative `n` (converted to an enormous
`size_t`) does not produce a string but fails; the model returns `none`
in exactly those out-of-range cases. -/
def print_bar (filled : ℚ) (bar_size : ℤ) : Option (List Char) :=
  let nf := num_filled filled bar_size
  if 0 ≤ nf ∧ nf ≤ bar_size then
    some (['['] ++ List.replicate nf.toNat '#' ++
          List.replicate (bar_size - nf).toNat ' ' ++ [']'])
  else none

/-- The fill count the specification describes: `round(complete * bar_width)`
clamped to `[0, bar_width]`.  Stated from the spec's words, for comparison
with the source's `num_filled`. -/
def num_filled_spec (filled : ℚ) (bar_size : ℤ) : ℤ :=
  max 0 (min bar_size (cppRound (filled * (bar_size : ℚ))))

/-- The line-width bookkeeping of `tqdm_for_lvalues::print_progress`, given
the recorded maximum width `term_cols` and the width `out_size` of the text
of the current render (`sbar.size() + suffix.size()`):

```cpp
term_cols_ = std::max(term_cols_, out_size);
index num_blank = term_cols_ - out_size;
(*os_) << sbar << suffix << std::string(num_blank, ' ') << std::flush;
```

Returns (total printed width, new `term_cols_`). -/
def print_width (term_cols out_size : ℤ) : ℤ × ℤ :=
  let tc := max term_cols out_size
  let num_blank := tc - out_size
  (out_size + num_blank, tc)

/-- The widths of the successive rendered lines, starting from a recorded
maximum `tc` (`term_cols_`, initialised to `1` in the source), for a run
whose renders have raw text widths `os`. -/
def run_widths : List ℤ → ℤ → List ℤ
  | [], _ => []
  | o :: os, tc => (print_width tc o).1 :: run_widths os (print_width tc o).2

/-- Iterating `update` over a list of tick times, collecting the render
events in order. -/
def runTicks : List ℚ → St → St × List RenderEvent
  | [], s => (s, [])
  | t :: ts, s =>
    match update t s with
    | (s1, r) =>
      match runTicks ts s1 with
      | (s2, rs) => (s2, r.toList ++ rs)

/-- The C++ ranged-for loop over the adapter, as generated by
`for (auto x : T)`: each evaluation of `it != end` calls `update` (the tick
hook of `iter_wrapper::operator!=`) and then compares the underlying
cursors; while the comparison yields inequality the loop dereferences,
runs its body, and advances.  The underlying sequence is given by the list
of its remaining elements (the cursor comparison yields equality exactly
when no elements remain).  `τ k` is the time at which the `k`-th
end-comparison happens; `k` is the index of the next tick.

Returns (final state, total tick count, render log, values produced). -/
def runLoop (τ : ℕ → ℚ) : List ℤ → ℕ → St → St × ℕ × List RenderEvent × List ℤ
  | [], k, s =>
    match update (τ k) s with
    | (s1, r) => (s1, k + 1, r.toList, [])
  | x :: rest, k, s =>
    match update (τ k) s with
    | (s1, r) =>
      match runLoop τ rest (k + 1) s1 with
      | (s2, k2, rs, ys) => (s2, k2, r.toList ++ rs, x :: ys)

/-- `int_iterator`/`range`: the values produced by repeatedly dereferencing
and incrementing (`++value_`) an `int_iterator` starting at `first` until
`operator!=` against the `last` sentinel yields equality.  The number of
steps is `last - first` (taken as `0` when `last ≤ first`); at each step
the produced value is the current one and the cursor moves up by one, so
the guard `value_ != last` of the source agrees with this count whenever
`first ≤ last`. -/
def rangeValuesAux : ℕ → ℤ → List ℤ
  | 0, _ => []
  | n + 1, first => first :: rangeValuesAux n (first + 1)

/-- The element list of `tq::range(first, last)`. -/
def rangeValues (first last : ℤ) : List ℤ := rangeValuesAux (last - first).toNat first

/-! ## The legacy header variant (`TqdmForLvalues`)

The older `tqdm.hpp` keeps the pair `iters_done_` / `iters_left_` instead of
`iters_done_` against a fixed `num_iters_`, and computes
`complete = iters_done_ / (iters_done_ + iters_left_ + 0.0000000000001)`
inside `print_progress`. -/

/-- The progress-relevant state of a legacy `TqdmForLvalues` object. -/
structure LSt where
  iters_done : ℤ
  iters_left : ℤ
  chrono_start : ℚ
  clear_start : ℚ
  min_time_per_update : ℚ
  suffix_ : String
deriving DecidableEq

/-- Legacy `TqdmForLvalues::print_progress`'s completion fraction:
`double total = iters_done_ + iters_left_ + 0.0000000000001;`
`double complete = double(iters_done_)/total;`. -/
def legacy_calc (s : LSt) : ℚ :=
  (s.iters_done : ℚ) / ((s.iters_done : ℚ) + (s.iters_left : ℚ) + eps)

/-- Legacy `TqdmForLvalues::update` at current time `now`:

```cpp
if (time_since_last_clear() > min_time_per_update_ ||
    iters_done_ == 0 || iters_left_ == 0)
{ clear_chrono_.reset(); clear_line(); print_progress(); }
++iters_done_;
--iters_left_;
suffix_.clear();
```

The render event records the time and the `complete` fraction printed.
The render condition of the `if` is `legacy_should_render`;
`legacy_update` is its body. -/
def legacy_should_render (now : ℚ) (s : LSt) : Prop :=
  chronoPeek s.clear_start now > s.min_time_per_update ∨ s.iters_done = 0 ∨
    s.iters_left = 0

instance (now : ℚ) (s : LSt) : Decidable (legacy_should_render now s) := by
  unfold legacy_should_render; infer_instance

/-- The state change and render emission of the legacy
`TqdmForLvalues::update` (see the comment on `legacy_should_render` for the
source text). -/
def legacy_update (now : ℚ) (s : LSt) : LSt × Option (ℚ × ℚ) :=
  if legacy_should_render now s then
    ({ s with clear_start := now, iters_done := s.iters_done + 1,
              iters_left := s.iters_left - 1, suffix_ := "" },
     some (now, legacy_calc s))
  else
    ({ s with iters_done := s.iters_done + 1, iters_left := s.iters_left - 1,
              suffix_ := "" }, none)

/-- Legacy `TqdmForLvalues::begin` (the state part): resets both clocks and
sets `iters_left_ = std::distance(first_, last_)` (the sequence length `n`);
unlike the current version it does not touch `iters_done_`. -/
def legacy_begin (t1 t2 : ℚ) (n : ℤ) (s : LSt) : LSt :=
  { s with chrono_start := t1, clear_start := t2, iters_left := n }

/-- Iterating `legacy_update` over a list of tick times, collecting the
(time, complete) pairs of the renders in order. -/
def legacy_runTicks : List ℚ → LSt → LSt × List (ℚ × ℚ)
  | [], s => (s, [])
  | t :: ts, s =>
    match legacy_update t s with
    | (s1, r) =>
      match legacy_runTicks ts s1 with
      | (s2, rs) => (s2, r.toList ++ rs)

/-! ## Basic lemmas about `update` -/

theorem update_num_iters (now : ℚ) (s : St) :
    ((update now s).1).num_iters = s.num_iters := by
  unfold update; split <;> rfl

theorem update_iters_done (now : ℚ) (s : St) :
    ((update now s).1).iters_done = s.iters_done + 1 := by
  unfold update; split <;> rfl

theorem update_min_time (now : ℚ) (s : St) :
    ((update now s).1).min_time_per_update = s.min_time_per_update := by
  unfold update; split <;> rfl

theorem update_suffix_empty (now : ℚ) (s : St) :
    ((update now s).1).suffix_ = "" := by
  unfold update; split <;> rfl

theorem update_pos (now : ℚ) (s : St) (h : should_render now s) :
    update now s =
      ({ s with refresh_start := now, iters_done := s.iters_done + 1, suffix_ := "" },
       some { time := now, done_at := s.iters_done, num := s.num_iters,
              complete := calc_advancement s, suffix_out := s.suffix_ }) := by
  unfold update; exact if_pos h

theorem update_neg (now : ℚ) (s : St) (h : ¬ should_render now s) :
    update now s = ({ s with iters_done := s.iters_done + 1, suffix_ := "" }, none) := by
  unfold update; exact if_neg h

theorem update_refresh_of_none (now : ℚ) (s : St) (h : (update now s).2 = none) :
    ((update now s).1).refresh_start = s.refresh_start := by
  by_cases hc : should_render now s
  · rw [update_pos now s hc] at h; simp at h
  · rw [update_neg now s hc]

theorem update_refresh_of_some (now : ℚ) (s : St) (r : RenderEvent)
    (h : (update now s).2 = some r) :
    ((update now s).1).refresh_start = now ∧ r.time = now ∧ r.done_at = s.iters_done ∧
      r.num = s.num_iters ∧ r.complete = calc_advancement s ∧ r.suffix_out = s.suffix_ := by
  by_cases hc : should_render now s
  · rw [update_pos now s hc] at h ⊢
    simp only [Option.some.injEq] at h
    subst h
    exact ⟨rfl, rfl, rfl, rfl, rfl, rfl⟩
  · rw [update_neg now s hc] at h; simp at h

theorem update_some_cond (now : ℚ) (s : St) (r : RenderEvent)
    (h : (update now s).2 = some r) : should_render now s := by
  by_cases hc : should_render now s
  · exact hc
  · rw [update_neg now s hc] at h; simp at h

/-! ## C4: `manually_set_advancement` -/

theorem clamp_eq_min_max (tov : ℚ) :
    (if (if tov > 1 then (1 : ℚ) else tov) < 0 then (0 : ℚ)
     else if tov > 1 then (1 : ℚ) else tov) = min 1 (max 0 tov) := by
  split_ifs with h1 h2 h2 <;>
    simp only [min_def, max_def] <;> split_ifs <;> linarith

/-- C4: `manually_set_advancement(fraction)` clamps its argument to `[0, 1]`
and then sets `done = round(fraction * total)`; for `total = 10` the
arguments `0.5`, `1.5` and `-1` give `done = 5`, `10` and `0`. -/
theorem manually_set_advancement_spec (s : St) (tov : ℚ) :
    (manually_set_advancement tov s).iters_done =
      cppRound (min 1 (max 0 tov) * (s.num_iters : ℚ)) ∧
    (s.num_iters = 10 →
      (manually_set_advancement (1/2) s).iters_done = 5 ∧
      (manually_set_advancement (3/2) s).iters_done = 10 ∧
      (manually_set_advancement (-1) s).iters_done = 0) := by
  constructor
  · unfold manually_set_advancement
    dsimp only
    rw [clamp_eq_min_max]
  · intro h
    refine ⟨?_, ?_, ?_⟩ <;>
      norm_num [manually_set_advancement, cppRound, h, Int.floor_eq_iff]

theorem manually_set_advancement_spec_witness :
    ({ num_iters := 10, iters_done := 0, chrono_start := 0, refresh_start := 0,
       min_time_per_update := 15/100, suffix_ := "" } : St).num_iters = 10 ∧
    (manually_set_advancement (1/2)
      { num_iters := 10, iters_done := 0, chrono_start := 0, refresh_start := 0,
        min_time_per_update := 15/100, suffix_ := "" }).iters_done = 5 :=
  ⟨rfl, ((manually_set_advancement_spec
    { num_iters := 10, iters_done := 0, chrono_start := 0, refresh_start := 0,
      min_time_per_update := 15/100, suffix_ := "" } (1/2)).2 rfl).1⟩

/-! ## C5: bar fill count -/

/-- C5 counterexample: the source's fill count is not clamped.  At
`complete = 2` with `bar_width = 30` the code computes `60` filled
segments (and then fails constructing the negative-length blank string),
while the claimed clamped value is `30`; in particular the bar does not
stay within `bar_width` characters for any value of `complete`. -/
theorem num_filled_no_clamp_cex :
    num_filled 2 30 = 60 ∧ num_filled_spec 2 30 = 30 ∧
    num_filled 2 30 ≠ num_filled_spec 2 30 ∧ ¬ num_filled 2 30 ≤ 30 ∧
    print_bar 2 30 = none := by
  norm_num [num_filled, num_filled_spec, cppRound, print_bar, Int.floor_eq_iff]

/-- C5 (amended): the fill count is `round(complete * bar_width)` with no
clamping; whenever `0 ≤ complete ≤ 1` and `bar_width ≥ 0` (the range
produced during a normal traversal) that value already lies in
`[0, bar_width]` and the bar renders with exactly that many `#` segments;
and `complete = 0.33` with `bar_width = 30` gives exactly `10`. -/
theorem print_bar_fill_spec (c : ℚ) (b : ℤ) :
    (0 ≤ c → c ≤ 1 → 0 ≤ b →
      0 ≤ num_filled c b ∧ num_filled c b ≤ b ∧
      print_bar c b = some (['['] ++ List.replicate (num_filled c b).toNat '#' ++
        List.replicate (b - num_filled c b).toNat ' ' ++ [']'])) ∧
    num_filled (33/100) 30 = 10 := by
  constructor
  · intro hc0 hc1 hb0
    have hb0' : (0 : ℚ) ≤ (b : ℚ) := by exact_mod_cast hb0
    have h1 : (0 : ℚ) ≤ c * (b : ℚ) := mul_nonneg hc0 hb0'
    have h2 : c * (b : ℚ) ≤ (b : ℚ) := by
      calc c * (b : ℚ) ≤ 1 * (b : ℚ) := mul_le_mul_of_nonneg_right hc1 hb0'
      _ = (b : ℚ) := one_mul _
    have hnf : num_filled c b = ⌊c * (b : ℚ) + 1/2⌋ := by
      unfold num_filled cppRound
      rw [if_neg (not_lt.mpr (by linarith))]
    have hge : 0 ≤ num_filled c b := by
      rw [hnf]
      exact Int.le_floor.mpr (by push_cast; linarith)
    have hle : num_filled c b ≤ b := by
      rw [hnf]
      have hlt : ⌊c * (b : ℚ) + 1/2⌋ < b + 1 := Int.floor_lt.mpr (by push_cast; linarith)
      omega
    refine ⟨hge, hle, ?_⟩
    unfold print_bar
    dsimp only
    rw [if_pos ⟨hge, hle⟩]
  · norm_num [num_filled, cppRound, Int.floor_eq_iff]

theorem print_bar_fill_spec_witness :
    0 ≤ num_filled (33/100) 30 ∧ num_filled (33/100) 30 ≤ 30 :=
  ⟨((print_bar_fill_spec (33/100) 30).1 (by norm_num) (by norm_num) (by norm_num)).1,
   ((print_bar_fill_spec (33/100) 30).1 (by norm_num) (by norm_num) (by norm_num)).2.1⟩

/-! ## C9: ε-guarded division with zero total -/

/-- C9: a zero (or unknown) total is not an error: the denominator of the
completion fraction is `total + ε` with `ε = 10 ^ -13 > 0`, so it is nonzero
for every nonnegative total (in particular for `total = 0`), the fraction is
an ordinary division by that nonzero denominator, and a tick with
`total = 0` still completes normally (it advances `done` by one). -/
theorem zero_total_eps_guard :
    0 < eps ∧
    (∀ n : ℤ, 0 ≤ n → ((n : ℚ) + eps) ≠ 0) ∧
    (∀ s : St, s.num_iters = 0 →
      ((s.num_iters : ℚ) + eps ≠ 0 ∧
       calc_advancement s = (s.iters_done : ℚ) * ((s.num_iters : ℚ) + eps)⁻¹)) ∧
    (∀ (t : ℚ) (s : St), s.num_iters = 0 →
      (update t s).1.iters_done = s.iters_done + 1) := by
  have heps : 0 < eps := by norm_num [eps]
  refine ⟨heps, ?_, ?_, ?_⟩
  · intro n hn
    have hn' : (0 : ℚ) ≤ (n : ℚ) := by exact_mod_cast hn
    exact ne_of_gt (by linarith)
  · intro s h
    constructor
    · rw [h]
      push_cast
      norm_num [eps]
    · unfold calc_advancement
      rw [div_eq_mul_inv]
  · intro t s _
    exact update_iters_done t s

theorem zero_total_eps_guard_witness : ((0 : ℤ) : ℚ) + eps ≠ 0 :=
  zero_total_eps_guard.2.1 0 (le_refl 0)

/-! ## Lemmas about full traversals (`runLoop`) -/

theorem runLoop_nil (τ : ℕ → ℚ) (k : ℕ) (s : St) :
    runLoop τ [] k s = ((update (τ k) s).1, k + 1, (update (τ k) s).2.toList, []) :=
  rfl

theorem runLoop_cons (τ : ℕ → ℚ) (x : ℤ) (rest : List ℤ) (k : ℕ) (s : St) :
    runLoop τ (x :: rest) k s =
      ((runLoop τ rest (k + 1) (update (τ k) s).1).1,
       (runLoop τ rest (k + 1) (update (τ k) s).1).2.1,
       (update (τ k) s).2.toList ++ (runLoop τ rest (k + 1) (update (τ k) s).1).2.2.1,
       x :: (runLoop τ rest (k + 1) (update (τ k) s).1).2.2.2) :=
  rfl

/-- The `done` counter after a full traversal: one increment per
end-comparison, i.e. one per element plus the final exit check. -/
theorem runLoop_done (τ : ℕ → ℚ) :
    ∀ (xs : List ℤ) (k : ℕ) (s : St),
      (runLoop τ xs k s).1.iters_done = s.iters_done + xs.length + 1 := by
  intro xs
  induction xs with
  | nil =>
    intro k s
    rw [runLoop_nil]
    simp [update_iters_done]
  | cons x rest ih =>
    intro k s
    rw [runLoop_cons]
    dsimp only
    rw [ih, update_iters_done]
    simp only [List.length_cons]
    push_cast
    ring

/-- The tick count after a full traversal: the number of end-comparisons,
i.e. the element count plus one. -/
theorem runLoop_ticks (τ : ℕ → ℚ) :
    ∀ (xs : List ℤ) (k : ℕ) (s : St), (runLoop τ xs k s).2.1 = k + xs.length + 1 := by
  intro xs
  induction xs with
  | nil => intro k s; rw [runLoop_nil]; simp
  | cons x rest ih =>
    intro k s
    rw [runLoop_cons]
    dsimp only
    rw [ih]
    simp only [List.length_cons]
    omega

/-- The values produced by the traversal are exactly the underlying
sequence, in order, unaltered. -/
theorem runLoop_values (τ : ℕ → ℚ) :
    ∀ (xs : List ℤ) (k : ℕ) (s : St), (runLoop τ xs k s).2.2.2 = xs := by
  intro xs
  induction xs with
  | nil => intro k s; rw [runLoop_nil]
  | cons x rest ih =>
    intro k s
    rw [runLoop_cons]
    dsimp only
    rw [ih]

/-- `num_iters_` is never modified during a traversal. -/
theorem runLoop_num_iters (τ : ℕ → ℚ) :
    ∀ (xs : List ℤ) (k : ℕ) (s : St), (runLoop τ xs k s).1.num_iters = s.num_iters := by
  intro xs
  induction xs with
  | nil => intro k s; rw [runLoop_nil]; exact update_num_iters _ _
  | cons x rest ih =>
    intro k s
    rw [runLoop_cons]
    dsimp only
    rw [ih, update_num_iters]

/-- The final end-comparison of a full traversal (`iters_left() == 0` there)
always renders, and that render is the last entry of the render log: it
happens at the final tick with `done_at = num_iters_` and completion
fraction `num_iters_ / (num_iters_ + ε)`. -/
theorem runLoop_lastRender (τ : ℕ → ℚ) :
    ∀ (xs : List ℤ) (k : ℕ) (s : St), s.num_iters = s.iters_done + xs.length →
      ∃ r : RenderEvent, (runLoop τ xs k s).2.2.1.getLast? = some r ∧
        r.time = τ (k + xs.length) ∧ r.done_at = s.num_iters ∧
        r.complete = (s.num_iters : ℚ) / ((s.num_iters : ℚ) + eps) := by
  intro xs
  induction xs with
  | nil =>
    intro k s h
    have hleft : iters_left s = 0 := by
      unfold iters_left
      simp only [List.length_nil, Nat.cast_zero, add_zero] at h
      omega
    have hsr : should_render (τ k) s := Or.inr (Or.inr hleft)
    rw [runLoop_nil, update_pos _ _ hsr]
    simp only [List.length_nil, Nat.cast_zero, add_zero] at h
    exact ⟨⟨τ k, s.iters_done, s.num_iters, calc_advancement s, s.suffix_⟩,
      by simp, by simp, h.symm, by unfold calc_advancement; rw [h]⟩
  | cons x rest ih =>
    intro k s h
    rw [runLoop_cons]
    dsimp only
    have hnum1 : ((update (τ k) s).1).num_iters =
        ((update (τ k) s).1).iters_done + rest.length := by
      rw [update_num_iters, update_iters_done]
      simp only [List.length_cons] at h
      push_cast at h ⊢
      linarith
    obtain ⟨r, hr, ht, hd, hc⟩ := ih (k + 1) (update (τ k) s).1 hnum1
    have hne : (runLoop τ rest (k + 1) (update (τ k) s).1).2.2.1 ≠ [] := by
      intro hnil
      rw [hnil] at hr
      simp at hr
    rw [List.getLast?_append_of_ne_nil _ hne]
    refine ⟨r, hr, ?_, ?_, ?_⟩
    · rw [ht]
      congr 1
      simp only [List.length_cons]
      omega
    · rw [hd, update_num_iters]
    · rw [hc, update_num_iters]

/-! ## C1: end-of-traversal counts and the final render -/

/-- C1 counterexample: for the two-element sequence `[10, 20]` traversed
fully (all ticks at time `0`, default minimum update time), `done` ends at
`3`, not `2`; the tick count is `3`, not the `2` iterations executed; and
the final render's completion fraction is not `1.0` (it is `2 / (2 + ε)`). -/
theorem traversal_count_cex :
    (runLoop (fun _ => 0) [10, 20] 0
      (tqBegin 0 0 ⟨2, 0, 0, 0, 15/100, ""⟩)).1.iters_done ≠ 2 ∧
    (runLoop (fun _ => 0) [10, 20] 0
      (tqBegin 0 0 ⟨2, 0, 0, 0, 15/100, ""⟩)).2.1 ≠ 2 ∧
    ((runLoop (fun _ => 0) [10, 20] 0
      (tqBegin 0 0 ⟨2, 0, 0, 0, 15/100, ""⟩)).2.2.1.getLast?.map RenderEvent.complete)
      ≠ some 1 := by
  norm_num [runLoop, update, should_render, tqBegin, time_since_refresh, chronoPeek,
    iters_left, calc_advancement, eps]

/-- C1 (amended): for every sequence of length `N` traversed fully, each of
the `N` iterations performs one end-comparison and the final end-comparison
exits the loop; every end-comparison ticks, so `done` ends at exactly
`N + 1` and the tick count is `N + 1` (iterations executed plus one); the
final end-comparison always triggers a render, at which the completion
fraction is `N / (N + ε)` — within `ε` of, but not exactly, `1.0`. -/
theorem traversal_final_count (τ : ℕ → ℚ) (xs : List ℤ) (t1 t2 : ℚ) (s : St)
    (h : s.num_iters = xs.length) :
    (runLoop τ xs 0 (tqBegin t1 t2 s)).1.iters_done = (xs.length : ℤ) + 1 ∧
    (runLoop τ xs 0 (tqBegin t1 t2 s)).2.1 = xs.length + 1 ∧
    ∃ r : RenderEvent, (runLoop τ xs 0 (tqBegin t1 t2 s)).2.2.1.getLast? = some r ∧
      r.time = τ xs.length ∧ r.done_at = (xs.length : ℤ) ∧
      r.complete = ((xs.length : ℤ) : ℚ) / (((xs.length : ℤ) : ℚ) + eps) := by
  have hb : (tqBegin t1 t2 s).iters_done = 0 := rfl
  have hbn : (tqBegin t1 t2 s).num_iters = s.num_iters := rfl
  refine ⟨?_, ?_, ?_⟩
  · rw [runLoop_done, hb]
    ring
  · rw [runLoop_ticks]
    omega
  · obtain ⟨r, hr, ht, hd, hc⟩ :=
      runLoop_lastRender τ xs 0 (tqBegin t1 t2 s) (by rw [hbn, hb, h]; ring)
    refine ⟨r, hr, by simpa using ht, by rw [hd, hbn, h], by rw [hc, hbn, h]⟩

theorem traversal_final_count_witness :
    (runLoop (fun _ => 0) [5, 7] 0
      (tqBegin 0 0 ⟨2, 5, 3, 4, 15/100, "x"⟩)).1.iters_done = (([5, 7] : List ℤ).length : ℤ) + 1 :=
  (traversal_final_count (fun _ => 0) [5, 7] 0 0 ⟨2, 5, 3, 4, 15/100, "x"⟩ (by norm_num)).1

/-! ## C6: values pass through unaltered; the integer range -/

/-- C6: the adapter yields exactly the values of the underlying sequence,
in order, unaltered; the range producer over `[100, 105)` yields
`100, 101, 102, 103, 104` in increasing order, `5` iterations total. -/
theorem adapter_values_unaltered (τ : ℕ → ℚ) (xs : List ℤ) (k : ℕ) (s : St) :
    (runLoop τ xs k s).2.2.2 = xs ∧
    rangeValues 100 105 = [100, 101, 102, 103, 104] ∧
    (runLoop τ (rangeValues 100 105) k s).2.2.2 = [100, 101, 102, 103, 104] ∧
    (runLoop τ (rangeValues 100 105) k s).2.2.2.length = 5 := by
  have hr : rangeValues 100 105 = [100, 101, 102, 103, 104] := by
    norm_num [rangeValues, rangeValuesAux]
  refine ⟨runLoop_values τ xs k s, hr, ?_, ?_⟩ <;>
    rw [runLoop_values, hr]
  rfl

/-! ## C8: `begin` resets the traversal -/

/-- C8: `begin()` resets `done` to `0` and both chronometers; consequently a
second full traversal of the same adapter starts again from `done = 0`
(whatever the state left by a previous traversal, after `begin` a full
traversal of an `N`-element sequence behaves as from a fresh start and ends
with `done = N + 1`). -/
theorem begin_resets (s : St) (t1 t2 : ℚ) :
    (tqBegin t1 t2 s).iters_done = 0 ∧
    (tqBegin t1 t2 s).chrono_start = t1 ∧
    (tqBegin t1 t2 s).refresh_start = t2 ∧
    (tqBegin t1 t2 s).num_iters = s.num_iters ∧
    ∀ (τ : ℕ → ℚ) (xs : List ℤ),
      (runLoop τ xs 0 (tqBegin t1 t2 s)).1.iters_done = (xs.length : ℤ) + 1 := by
  refine ⟨rfl, rfl, rfl, rfl, ?_⟩
  intro τ xs
  rw [runLoop_done]
  show (0 : ℤ) + xs.length + 1 = xs.length + 1
  ring

/-! ## C2: the render-throttling policy -/

theorem runTicks_nil (s : St) : runTicks [] s = (s, []) := rfl

theorem runTicks_cons (t : ℚ) (ts : List ℚ) (s : St) :
    runTicks (t :: ts) s =
      ((runTicks ts (update t s).1).1,
       (update t s).2.toList ++ (runTicks ts (update t s).1).2) :=
  rfl

/-- A render is intermediate when its tick was neither the first of the
traversal (`done == 0`) nor the last (`iters_left() == 0`). -/
def intermediate (r : RenderEvent) : Prop := r.done_at ≠ 0 ∧ r.num - r.done_at ≠ 0

/-- Auxiliary invariant: the first render of a tick run, if intermediate,
is separated from the refresh-clock start by more than the minimum update
time, and so is every later intermediate render from its predecessor. -/
theorem runTicks_throttle_aux :
    ∀ (ts : List ℚ) (s : St),
      (∀ r, ((runTicks ts s).2).head? = some r → intermediate r →
        r.time - s.refresh_start > s.min_time_per_update) ∧
      List.Chain' (fun a b => intermediate b →
        b.time - a.time > s.min_time_per_update) ((runTicks ts s).2) := by
  intro ts
  induction ts with
  | nil =>
    intro s
    rw [runTicks_nil]
    exact ⟨fun r hr => by simp at hr, List.chain'_nil⟩
  | cons t ts ih =>
    intro s
    rw [runTicks_cons]
    dsimp only
    have hmin : ((update t s).1).min_time_per_update = s.min_time_per_update :=
      update_min_time t s
    rcases hu : (update t s).2 with _ | r
    · have hrs : ((update t s).1).refresh_start = s.refresh_start :=
        update_refresh_of_none t s hu
      obtain ⟨ihead, ichain⟩ := ih (update t s).1
      rw [hmin, hrs] at ihead
      rw [hmin] at ichain
      exact ⟨ihead, ichain⟩
    · obtain ⟨hrs, htime, hdone, hnum, _, _⟩ := update_refresh_of_some t s r hu
      obtain ⟨ihead, ichain⟩ := ih (update t s).1
      rw [hmin] at ihead ichain
      constructor
      · intro r' hr' hint
        simp only [Option.toList_some, List.singleton_append, List.head?_cons,
          Option.some.injEq] at hr'
        subst hr'
        rcases update_some_cond t s r hu with hc | hc | hc
        · rw [htime]
          exact hc
        · exact absurd (hdone.trans hc) hint.1
        · exact absurd (by rw [hnum, hdone]; exact hc) hint.2
      · simp only [Option.toList_some, List.singleton_append]
        apply List.chain'_cons'.mpr
        refine ⟨?_, ichain⟩
        intro y hy hint
        have h5 := ihead y hy hint
        rw [hrs] at h5
        rw [htime]
        exact h5

/-- C2: the tick/render throttling policy: the first tick of a traversal
(`done == 0`) always renders regardless of elapsed time; the last tick
(`iters_left() == 0`) always renders; an intermediate tick renders only if
the time elapsed since the refresh clock was last reset exceeds the minimum
update time; consequently, in any run of ticks, an intermediate render is
separated from the render just before it by more than the minimum update
time. -/
theorem tick_throttling_policy (t : ℚ) (s : St) :
    (s.iters_done = 0 → ((update t s).2).isSome = true) ∧
    (iters_left s = 0 → ((update t s).2).isSome = true) ∧
    (∀ r, (update t s).2 = some r → s.iters_done ≠ 0 → iters_left s ≠ 0 →
      t - s.refresh_start > s.min_time_per_update) ∧
    (∀ (ts : List ℚ) (s0 : St),
      List.Chain' (fun a b => intermediate b →
        b.time - a.time > s0.min_time_per_update) ((runTicks ts s0).2)) := by
  refine ⟨?_, ?_, ?_, ?_⟩
  · intro h
    rw [update_pos _ _ (Or.inr (Or.inl h))]
    rfl
  · intro h
    rw [update_pos _ _ (Or.inr (Or.inr h))]
    rfl
  · intro r hr hd hl
    rcases update_some_cond t s r hr with hc | hc | hc
    · exact hc
    · exact absurd hc hd
    · exact absurd hc hl
  · intro ts s0
    exact (runTicks_throttle_aux ts s0).2

theorem tick_throttling_policy_witness :
    ((update 0 ⟨5, 0, 0, 0, 15/100, ""⟩).2).isSome = true :=
  (tick_throttling_policy 0 ⟨5, 0, 0, 0, 15/100, ""⟩).1 rfl

/-! ## C3: suffix accumulation and clearing -/

/-- C3 counterexample: an append made before a tick that does **not**
render is lost, because `update` clears the suffix on every tick.  With
`done = 1`, `left = 2`, default minimum update time `0.15`: append `"a"`,
tick at `t = 0.1` (no render), append `"b"`, tick at `t = 0.2` (renders) —
the render shows `"b"`, not `"ab"`. -/
theorem suffix_lost_at_nonrender_tick_cex :
    ((update (1/10) (push_suffix ⟨3, 1, 0, 0, 15/100, ""⟩ "a")).2 = none) ∧
    ((update (2/10) (push_suffix (update (1/10) (push_suffix
        ⟨3, 1, 0, 0, 15/100, ""⟩ "a")).1 "b")).2.map RenderEvent.suffix_out)
      = some "b" ∧
    ((update (2/10) (push_suffix (update (1/10) (push_suffix
        ⟨3, 1, 0, 0, 15/100, ""⟩ "a")).1 "b")).2.map RenderEvent.suffix_out)
      ≠ some "ab" := by
  refine ⟨?_, ?_, ?_⟩ <;>
    norm_num [update, should_render, push_suffix, time_since_refresh, chronoPeek,
      iters_left, calc_advancement, eps]
  decide

/-- C3 (amended): suffix text appended via multiple calls accumulates,
concatenated in call order, until the next **tick** (not render): every
tick clears the suffix whether or not it renders, so a render shows exactly
the text appended since the previous tick, and the suffix is empty
immediately after each render (indeed after every tick). -/
theorem suffix_accumulation (s : St) (a b : String) (t : ℚ) :
    (push_suffix (push_suffix s a) b).suffix_ = s.suffix_ ++ a ++ b ∧
    ((update t s).1).suffix_ = "" ∧
    (∀ r, (update t s).2 = some r → r.suffix_out = s.suffix_) := by
  refine ⟨rfl, update_suffix_empty t s, ?_⟩
  intro r hr
  exact (update_refresh_of_some t s r hr).2.2.2.2.2

theorem suffix_accumulation_witness :
    (RenderEvent.suffix_out
      ⟨0, 0, 5, calc_advancement ⟨5, 0, 0, 0, 15/100, "hi"⟩, "hi"⟩) = "hi" ∧
    ((update 0 ⟨5, 0, 0, 0, 15/100, "hi"⟩).1).suffix_ = "" :=
  ⟨(suffix_accumulation ⟨5, 0, 0, 0, 15/100, "hi"⟩ "a" "b" 0).2.2
      ⟨0, 0, 5, calc_advancement ⟨5, 0, 0, 0, 15/100, "hi"⟩, "hi"⟩
      (by rw [update_pos _ _ (Or.inr (Or.inl rfl))]),
   (suffix_accumulation ⟨5, 0, 0, 0, 15/100, "hi"⟩ "a" "b" 0).2.1⟩

/-! ## C7: line-width padding -/

theorem print_width_fst (tc o : ℤ) : (print_width tc o).1 = max tc o := by
  unfold print_width
  dsimp only
  ring

theorem print_width_snd (tc o : ℤ) : (print_width tc o).2 = max tc o := rfl

/-- Every printed width in a run is at least the recorded width the run
started from. -/
theorem run_widths_ge :
    ∀ (os : List ℤ) (tc : ℤ), ∀ w ∈ run_widths os tc, tc ≤ w := by
  intro os
  induction os with
  | nil => intro tc w hw; simp [run_widths] at hw
  | cons o os ih =>
    intro tc w hw
    simp only [run_widths, List.mem_cons] at hw
    rcases hw with hw | hw
    · rw [hw, print_width_fst]
      exact le_max_left tc o
    · have h2 := ih (print_width tc o).2 w hw
      rw [print_width_snd] at h2
      exact le_trans (le_max_left tc o) h2

/-- C7: every rendered line is padded on the right so that its total width
is the recorded maximum width, which is monotonically non-decreasing and at
least the raw width of the current line; hence the printed widths of a run
never decrease (a shorter render still fully overwrites any earlier one). -/
theorem render_width_monotone (os : List ℤ) (tc : ℤ) :
    List.Chain' (· ≤ ·) (run_widths os tc) ∧
    (∀ w ∈ run_widths os tc, tc ≤ w) ∧
    (∀ tc' o : ℤ, tc' ≤ (print_width tc' o).2 ∧ o ≤ (print_width tc' o).1 ∧
      (print_width tc' o).1 = (print_width tc' o).2) := by
  refine ⟨?_, run_widths_ge os tc, ?_⟩
  · induction os generalizing tc with
    | nil => simp [run_widths]
    | cons o os ih =>
      simp only [run_widths]
      apply List.chain'_cons'.mpr
      refine ⟨?_, ih _⟩
      intro y hy
      have hmem : y ∈ run_widths os (print_width tc o).2 := List.mem_of_mem_head? hy
      have h2 := run_widths_ge _ _ y hmem
      rw [print_width_snd] at h2
      rw [print_width_fst]
      exact h2
  · intro tc' o
    refine ⟨?_, ?_, ?_⟩
    · rw [print_width_snd]
      exact le_max_left tc' o
    · rw [print_width_fst]
      exact le_max_right tc' o
    · rw [print_width_fst, print_width_snd]

theorem render_width_monotone_witness :
    (1 : ℤ) ≤ 3 ∧ (3 : ℤ) ∈ run_widths [3] 1 :=
  have hmem : (3 : ℤ) ∈ run_widths [3] 1 := by
    norm_num [run_widths, print_width]
  ⟨(render_width_monotone [3] 1).2.1 3 hmem, hmem⟩

/-! ## C10: the legacy and current adapters agree -/

theorem legacy_update_pos (now : ℚ) (s : LSt) (h : legacy_should_render now s) :
    legacy_update now s =
      ({ s with clear_start := now, iters_done := s.iters_done + 1,
                iters_left := s.iters_left - 1, suffix_ := "" },
       some (now, legacy_calc s)) := by
  unfold legacy_update; exact if_pos h

theorem legacy_update_neg (now : ℚ) (s : LSt) (h : ¬ legacy_should_render now s) :
    legacy_update now s =
      ({ s with iters_done := s.iters_done + 1, iters_left := s.iters_left - 1,
                suffix_ := "" }, none) := by
  unfold legacy_update; exact if_neg h

theorem legacy_runTicks_nil (s : LSt) : legacy_runTicks [] s = (s, []) := rfl

theorem legacy_runTicks_cons (t : ℚ) (ts : List ℚ) (s : LSt) :
    legacy_runTicks (t :: ts) s =
      ((legacy_runTicks ts (legacy_update t s).1).1,
       (legacy_update t s).2.toList ++ (legacy_runTicks ts (legacy_update t s).1).2) :=
  rfl

/-- Under the coupling invariant (equal `done`, legacy `done + left` equal
to the current fixed total, equal refresh-clock starts and minimum update
times) the render conditions of the two versions coincide. -/
theorem should_render_iff (t : ℚ) (l : LSt) (c : St)
    (h1 : l.iters_done = c.iters_done)
    (h2 : l.iters_done + l.iters_left = c.num_iters)
    (h3 : l.clear_start = c.refresh_start)
    (h4 : l.min_time_per_update = c.min_time_per_update) :
    legacy_should_render t l ↔ should_render t c := by
  unfold legacy_should_render should_render time_since_refresh iters_left
  rw [h1, h3, h4]
  constructor
  · rintro (h | h | h)
    · exact Or.inl h
    · exact Or.inr (Or.inl h)
    · refine Or.inr (Or.inr ?_)
      omega
  · rintro (h | h | h)
    · exact Or.inl h
    · exact Or.inr (Or.inl h)
    · refine Or.inr (Or.inr ?_)
      omega

/-- Under the coupling invariant the two completion-fraction formulas agree:
`done / (done + left + ε) = done / (num + ε)`. -/
theorem calc_eq (l : LSt) (c : St)
    (h1 : l.iters_done = c.iters_done)
    (h2 : l.iters_done + l.iters_left = c.num_iters) :
    legacy_calc l = calc_advancement c := by
  unfold legacy_calc calc_advancement
  rw [h1]
  congr 1
  have : ((l.iters_done + l.iters_left : ℤ) : ℚ) = ((c.num_iters : ℤ) : ℚ) := by
    exact_mod_cast congrArg (fun z : ℤ => (z : ℚ)) h2
  push_cast at this ⊢
  rw [h1] at this
  linarith

/-- C10: on the same tick times, a legacy `TqdmForLvalues` and a current
`tqdm_for_lvalues` that start coupled (same `done`, legacy
`done + left` equal to the current total `N`, same refresh-clock start and
minimum update time — as holds after `begin()` on a fresh object of each,
where `done = 0` and `left = N = num_iters`) render at exactly the same
ticks with exactly the same completion fraction, keep equal `done`
counters, and the legacy pair keeps the invariant `done + left = N`. -/
theorem legacy_current_equiv :
    ∀ (ts : List ℚ) (l : LSt) (c : St),
      l.iters_done = c.iters_done →
      l.iters_done + l.iters_left = c.num_iters →
      l.clear_start = c.refresh_start →
      l.min_time_per_update = c.min_time_per_update →
      ((legacy_runTicks ts l).2 =
        (runTicks ts c).2.map (fun r => (r.time, r.complete)) ∧
       (legacy_runTicks ts l).1.iters_done = (runTicks ts c).1.iters_done ∧
       (legacy_runTicks ts l).1.iters_done + (legacy_runTicks ts l).1.iters_left
         = c.num_iters) := by
  intro ts
  induction ts with
  | nil =>
    intro l c h1 h2 h3 h4
    rw [legacy_runTicks_nil, runTicks_nil]
    exact ⟨rfl, h1, h2⟩
  | cons t ts ih =>
    intro l c h1 h2 h3 h4
    rw [legacy_runTicks_cons, runTicks_cons]
    dsimp only
    by_cases hc : should_render t c
    · have hl : legacy_should_render t l := (should_render_iff t l c h1 h2 h3 h4).mpr hc
      rw [legacy_update_pos t l hl, update_pos t c hc]
      dsimp only
      have hstep := ih
        { l with clear_start := t, iters_done := l.iters_done + 1,
                 iters_left := l.iters_left - 1, suffix_ := "" }
        { c with refresh_start := t, iters_done := c.iters_done + 1, suffix_ := "" }
        (by dsimp only; rw [h1]) (by dsimp only; omega) rfl h4
      refine ⟨?_, hstep.2.1, hstep.2.2⟩
      rw [hstep.1]
      simp only [Option.toList_some, List.singleton_append, List.map_cons]
      rw [calc_eq l c h1 h2]
    · have hl : ¬ legacy_should_render t l :=
        fun h => hc ((should_render_iff t l c h1 h2 h3 h4).mp h)
      rw [legacy_update_neg t l hl, update_neg t c hc]
      dsimp only
      have hstep := ih
        { l with iters_done := l.iters_done + 1, iters_left := l.iters_left - 1,
                 suffix_ := "" }
        { c with iters_done := c.iters_done + 1, suffix_ := "" }
        (by dsimp only; rw [h1]) (by dsimp only; omega) h3 h4
      exact ⟨by rw [hstep.1]; rfl, hstep.2.1, hstep.2.2⟩

theorem legacy_current_equiv_witness :
    (legacy_runTicks [0, 1/10, 2/10] ⟨0, 2, 0, 0, 15/100, ""⟩).2 =
      (runTicks [0, 1/10, 2/10] ⟨2, 0, 0, 0, 15/100, ""⟩).2.map
        (fun r => (r.time, r.complete)) :=
  (legacy_current_equiv [0, 1/10, 2/10] ⟨0, 2, 0, 0, 15/100, ""⟩
    ⟨2, 0, 0, 0, 15/100, ""⟩ rfl rfl rfl rfl).1

end Tq
